import Mathlib

/-!
Verification development for a Connect Four program (`connect_four.js`).

The board is a 6 × 7 grid of cells holding `EMPTY = 0`, `PLAYER = 1`
(the human) or `OPPONENT = 2` (the AI).  The program provides:

* `checkWin` / `checkDirection` — four-in-a-row detection;
* `isBoardFull` — the top row has no empty cell;
* `evaluateLine` / `heuristic` — the positional evaluator (hard mode);
* `minimax` — depth-limited minimax with alpha/beta bounds, implemented
  by in-place mutation and undo on a shared board (modelled here by
  threading the board through every call and returning it);
* `bestMove` — the top-level driver, with a hard branch (`bestMoveHard`)
  and an easy branch (`bestMoveEasy` / `aStarSearch`);
* `generateSuccessors`, `aStarSearch` — best-first search (easy mode);
* `placePiece`, `playGame` (modelled as `playTurn`) — the game engine.

JavaScript numbers that can be `±Infinity` (alpha, beta, the running
best scores) are modelled by the type `XInt`; all actually computed
scores are integers.  Boards are lists of rows of naturals; reads use
`List.getD` and writes use `List.set`, which matches the source's
always-in-bounds accesses on well-formed 6 × 7 boards.
-/

def EMPTY : Nat := 0
def PLAYER : Nat := 1
def OPPONENT : Nat := 2
def ROWS : Nat := 6
def COLS : Nat := 7
def MAX_DEPTH : Nat := 4

/-- A board: a list of rows, each a list of cells. The program always
works with 6 rows of 7 cells. -/
abbrev Board := List (List Nat)

/-- Well-formedness: exactly 6 rows of 7 cells, as built by the program. -/
def WF (b : Board) : Prop := b.length = 6 ∧ ∀ row ∈ b, row.length = 7

instance (b : Board) : Decidable (WF b) := by
  unfold WF; infer_instance

/-- Read `board[r][c]` (default 0 outside the lists, matching that the
program only reads in-bounds cells of well-formed boards). -/
def cellAt (b : Board) (r c : Nat) : Nat := (b.getD r []).getD c 0

/-- Write `board[r][c] = v` (no-op outside the lists). -/
def setCell (b : Board) (r c : Nat) (v : Nat) : Board :=
  b.set r ((b.getD r []).set c v)

/-- Bounds test `0 <= r < ROWS && 0 <= c < COLS` used by the scanners. -/
def inBounds (r c : Int) : Bool :=
  0 ≤ r && r < 6 && 0 ≤ c && c < 7

/-- Source `checkDirection(board, row, col, player, dRow, dCol)`: the 4 cells
starting at `(row, col)` stepping by `(dRow, dCol)` are all in bounds
and all equal to `player`. -/
def checkDirection (b : Board) (row col : Int) (player : Nat) (dRow dCol : Int) : Bool :=
  (List.range 4).all fun i =>
    let r := row + i * dRow
    let c := col + i * dCol
    inBounds r c && cellAt b r.toNat c.toNat == player

/-- Source `checkWin(board, player)`: some cell holds `player` and starts a
four-in-a-row in one of the four scanned directions.  The source
returns `player` or `null`; callers only use it as a boolean. -/
def checkWin (b : Board) (player : Nat) : Bool :=
  (List.range 6).any fun row => (List.range 7).any fun col =>
    cellAt b row col == player &&
      (checkDirection b row col player 1 0 ||
       checkDirection b row col player 0 1 ||
       checkDirection b row col player 1 1 ||
       checkDirection b row col player 1 (-1))

/-- Source `isBoardFull(board)`: every cell of the top row (row 0) is non-empty. -/
def isBoardFull (b : Board) : Bool :=
  (b.getD 0 []).all fun cell => cell != EMPTY

/-- Cell classification counts of `evaluateLine`: for the window of up
to 4 cells starting at `(row, col)` with step `(dRow, dCol)`, count
(cells equal to `player`, cells equal to the other side, other in-bounds
cells).  Out-of-bounds steps are not counted at all. -/
def countCells (b : Board) (row col : Nat) (player : Nat) (dRow dCol : Int) :
    List Nat → Nat × Nat × Nat
  | [] => (0, 0, 0)
  | i :: is =>
    let rest := countCells b row col player dRow dCol is
    let r : Int := (row : Int) + (i : Int) * dRow
    let c : Int := (col : Int) + (i : Int) * dCol
    if inBounds r c then
      let v := cellAt b r.toNat c.toNat
      if v == player then (rest.1 + 1, rest.2.1, rest.2.2)
      else if v == (if player == PLAYER then OPPONENT else PLAYER) then
        (rest.1, rest.2.1 + 1, rest.2.2)
      else (rest.1, rest.2.1, rest.2.2 + 1)
    else rest

/-- The score contribution of one direction inside `evaluateLine`:
classify the window by (countPlayer, countOpponent, emptyCount) and
apply the two if-chains of the source. -/
def dirScore (b : Board) (row col : Nat) (player : Nat) (dRow dCol : Int) : Int :=
  let cnt := countCells b row col player dRow dCol [0, 1, 2, 3]
  let cp := cnt.1
  let co := cnt.2.1
  let ce := cnt.2.2
  (if cp == 3 && ce == 1 then (100 : Int)
   else if co == 3 && ce == 1 then -100
   else if cp == 2 && ce == 2 then 10
   else if co == 2 && ce == 2 then -10
   else 0) +
  (if cp == 1 && ce == 3 then (5 : Int)
   else if co == 1 && ce == 3 then -5
   else 0)

/-- Source `evaluateLine(board, row, col, player)`: sum of the four directional
window scores anchored at `(row, col)`. -/
def evaluateLine (b : Board) (row col : Nat) (player : Nat) : Int :=
  dirScore b row col player 0 1 + dirScore b row col player 1 0 +
  dirScore b row col player 1 1 + dirScore b row col player 1 (-1)

/-- Per-cell contribution inside `heuristic`: `+evaluateLine(..,OPPONENT)`
for opponent cells, `-evaluateLine(..,PLAYER)` for player cells, else 0. -/
def cellScore (b : Board) (row col : Nat) : Int :=
  if cellAt b row col == OPPONENT then evaluateLine b row col OPPONENT
  else if cellAt b row col == PLAYER then -evaluateLine b row col PLAYER
  else 0

/-- Source `heuristic(board)`: the hard-mode evaluator, summed over all cells. -/
def heuristic (b : Board) : Int :=
  ((List.range 6).map fun row =>
    ((List.range 7).map fun col => cellScore b row col).sum).sum

/-- JavaScript numbers as used for scores and alpha/beta bounds:
an integer or one of the two infinities. -/
inductive XInt where
  | negInf
  | fin (n : Int)
  | posInf
deriving DecidableEq

/-- The `<=` test on scores (total order with `-Infinity` least). -/
def xle : XInt → XInt → Bool
  | .negInf, _ => true
  | _, .posInf => true
  | .posInf, _ => false
  | .fin _, .negInf => false
  | .fin a, .fin b => a ≤ b

/-- The strict `>` test `b > a`, written `xlt a b`. -/
def xlt (a b : XInt) : Bool := !xle b a

/-- Model of `Math.max` on scores. -/
def xmax (a b : XInt) : XInt := if xle a b then b else a

/-- Model of `Math.min` on scores. -/
def xmin (a b : XInt) : XInt := if xle a b then a else b

example : cellAt [[1, 2], [3]] 0 1 = 2 := by decide
example : setCell [[1, 2], [3, 4]] 1 0 9 = [[1, 2], [9, 4]] := by decide
example : xmax .negInf (.fin 3) = .fin 3 := by decide

/-- The row indices scanned by every drop loop: bottom row first. -/
def rowsBottomUp : List Nat := [5, 4, 3, 2, 1, 0]

/-- The column indices scanned by every column loop, ascending. -/
def colsAsc : List Nat := [0, 1, 2, 3, 4, 5, 6]

/-- The inner row loop of `minimax`'s maximizing branch for one column:
for each empty cell of the column, bottom row first, place `OPPONENT`,
evaluate via `rec` (the `depth - 1` recursive call), restore `EMPTY`,
update `maxEval` and `alpha`, and break out of the row loop once
`beta <= alpha`.  Returns `(maxEval, alpha, board)`.  Note the source
has no unconditional break here, so every empty cell of the column is
tried unless the pruning break fires. -/
def maxRowLoop (rec : Board → XInt → XInt × Board) (col : Nat)
    (beta : XInt) : List Nat → Board → XInt → XInt → XInt × XInt × Board
  | [], bd, alpha, maxEval => (maxEval, alpha, bd)
  | r :: rs, bd, alpha, maxEval =>
    if cellAt bd r col == EMPTY then
      let b1 := setCell bd r col OPPONENT
      let res := rec b1 alpha
      let b3 := setCell res.2 r col EMPTY
      let maxEval' := xmax maxEval res.1
      let alpha' := xmax alpha res.1
      if xle beta alpha' then (maxEval', alpha', b3)
      else maxRowLoop rec col beta rs b3 alpha' maxEval'
    else maxRowLoop rec col beta rs bd alpha maxEval

/-- The outer column loop of `minimax`'s maximizing branch: run the row
loop for each column in ascending order, threading `alpha`, `maxEval`
and the board.  `beta` is never updated in this branch. -/
def maxColLoop (rec : Board → XInt → XInt × Board) (beta : XInt) :
    List Nat → Board → XInt → XInt → XInt × Board
  | [], bd, _, maxEval => (maxEval, bd)
  | c :: cs, bd, alpha, maxEval =>
    let res := maxRowLoop rec c beta rowsBottomUp bd alpha maxEval
    maxColLoop rec beta cs res.2.2 res.2.1 res.1

/-- The inner row loop of `minimax`'s minimizing branch: places `PLAYER`,
updates `minEval` and `beta`, same pruning test `beta <= alpha`. -/
def minRowLoop (rec : Board → XInt → XInt × Board) (col : Nat)
    (alpha : XInt) : List Nat → Board → XInt → XInt → XInt × XInt × Board
  | [], bd, beta, minEval => (minEval, beta, bd)
  | r :: rs, bd, beta, minEval =>
    if cellAt bd r col == EMPTY then
      let b1 := setCell bd r col PLAYER
      let res := rec b1 beta
      let b3 := setCell res.2 r col EMPTY
      let minEval' := xmin minEval res.1
      let beta' := xmin beta res.1
      if xle beta' alpha then (minEval', beta', b3)
      else minRowLoop rec col alpha rs b3 beta' minEval'
    else minRowLoop rec col alpha rs bd beta minEval

/-- The outer column loop of `minimax`'s minimizing branch. -/
def minColLoop (rec : Board → XInt → XInt × Board) (alpha : XInt) :
    List Nat → Board → XInt → XInt → XInt × Board
  | [], bd, _, minEval => (minEval, bd)
  | c :: cs, bd, beta, minEval =>
    let res := minRowLoop rec c alpha rowsBottomUp bd beta minEval
    minColLoop rec alpha cs res.2.2 res.2.1 res.1

/-- Source `minimax(board, depth, alpha, beta, isMaximizingPlayer)`.  The source
mutates one shared board and undoes each placement; here the board is
threaded explicitly: the function returns `(value, board after the
call)`, so mutation effects on the caller's board are observable as the
second component. -/
def minimax : Board → Nat → XInt → XInt → Bool → XInt × Board
  | b, 0, _, _, _ => (.fin (heuristic b), b)
  | b, d + 1, alpha, beta, maximizing =>
    if checkWin b PLAYER || checkWin b OPPONENT || isBoardFull b then
      (.fin (heuristic b), b)
    else if maximizing then
      maxColLoop (fun b' a' => minimax b' d a' beta false) beta colsAsc b alpha .negInf
    else
      minColLoop (fun b' bt => minimax b' d alpha bt true) alpha colsAsc b beta .posInf

/-- The hard branch of `bestMove`: for each column ascending, place
`OPPONENT` at the first empty cell from the bottom (this loop, unlike
`minimax`'s, breaks unconditionally after one placement), score by
`minimax(board, MAX_DEPTH, -Infinity, Infinity, false)`, restore the
cell, and keep the column with strictly greater score.  Returns the
chosen column (`-1` when no column has an empty cell) and the board
after the call. -/
def bestLoop : List Nat → Board → XInt → Int → Int × Board
  | [], bd, _, move => (move, bd)
  | c :: cs, bd, bestScore, move =>
    match rowsBottomUp.find? fun r => cellAt bd r c == EMPTY with
    | none => bestLoop cs bd bestScore move
    | some r =>
      let b1 := setCell bd r c OPPONENT
      let res := minimax b1 MAX_DEPTH .negInf .posInf false
      let b3 := setCell res.2 r c EMPTY
      if xlt bestScore res.1 then bestLoop cs b3 res.1 (c : Int)
      else bestLoop cs b3 bestScore move

/-- Source `bestMove(board, difficulty)` with `difficulty !== 'easy'`. -/
def bestMoveHard (b : Board) : Int × Board :=
  bestLoop colsAsc b .negInf (-1)

example : (minimax [[0]] 0 .negInf .posInf true).1 = .fin (heuristic [[0]]) := rfl


/-- One hypothetical placement explored by a `minimax` layer: the cell
written, and the values of `alpha` and `beta` right after the evaluation
and bound updates for that placement (the values the pruning test
`beta <= alpha` reads). -/
structure TEntry where
  row : Nat
  col : Nat
  alphaAfter : XInt
  betaAfter : XInt
deriving DecidableEq

/-- Loop `maxRowLoop` instrumented with the list of placements it explores
(ghost data only: values, bounds and boards are computed identically). -/
def maxRowT (rec : Board → XInt → XInt × Board) (col : Nat)
    (beta : XInt) : List Nat → Board → XInt → XInt → XInt × XInt × Board × List TEntry
  | [], bd, alpha, maxEval => (maxEval, alpha, bd, [])
  | r :: rs, bd, alpha, maxEval =>
    if cellAt bd r col == EMPTY then
      let b1 := setCell bd r col OPPONENT
      let res := rec b1 alpha
      let b3 := setCell res.2 r col EMPTY
      let maxEval' := xmax maxEval res.1
      let alpha' := xmax alpha res.1
      let e : TEntry := ⟨r, col, alpha', beta⟩
      if xle beta alpha' then (maxEval', alpha', b3, [e])
      else
        let rest := maxRowT rec col beta rs b3 alpha' maxEval'
        (rest.1, rest.2.1, rest.2.2.1, e :: rest.2.2.2)
    else maxRowT rec col beta rs bd alpha maxEval

/-- Loop `maxColLoop` instrumented with the explored placements. -/
def maxColT (rec : Board → XInt → XInt × Board) (beta : XInt) :
    List Nat → Board → XInt → XInt → XInt × Board × List TEntry
  | [], bd, _, maxEval => (maxEval, bd, [])
  | c :: cs, bd, alpha, maxEval =>
    let res := maxRowT rec c beta rowsBottomUp bd alpha maxEval
    let rest := maxColT rec beta cs res.2.2.1 res.2.1 res.1
    (rest.1, rest.2.1, res.2.2.2 ++ rest.2.2)

/-- Loop `minRowLoop` instrumented with the explored placements. -/
def minRowT (rec : Board → XInt → XInt × Board) (col : Nat)
    (alpha : XInt) : List Nat → Board → XInt → XInt → XInt × XInt × Board × List TEntry
  | [], bd, beta, minEval => (minEval, beta, bd, [])
  | r :: rs, bd, beta, minEval =>
    if cellAt bd r col == EMPTY then
      let b1 := setCell bd r col PLAYER
      let res := rec b1 beta
      let b3 := setCell res.2 r col EMPTY
      let minEval' := xmin minEval res.1
      let beta' := xmin beta res.1
      let e : TEntry := ⟨r, col, alpha, beta'⟩
      if xle beta' alpha then (minEval', beta', b3, [e])
      else
        let rest := minRowT rec col alpha rs b3 beta' minEval'
        (rest.1, rest.2.1, rest.2.2.1, e :: rest.2.2.2)
    else minRowT rec col alpha rs bd beta minEval

/-- Loop `minColLoop` instrumented with the explored placements. -/
def minColT (rec : Board → XInt → XInt × Board) (alpha : XInt) :
    List Nat → Board → XInt → XInt → XInt × Board × List TEntry
  | [], bd, _, minEval => (minEval, bd, [])
  | c :: cs, bd, beta, minEval =>
    let res := minRowT rec c alpha rowsBottomUp bd beta minEval
    let rest := minColT rec alpha cs res.2.2.1 res.2.1 res.1
    (rest.1, rest.2.1, res.2.2.2 ++ rest.2.2)

/-- Function `minimax` instrumented with the list of hypothetical placements the
top recursion layer explores, in order.  Deeper layers run the plain
`minimax`; the extra list is ghost data and does not influence any
computed value. -/
def minimaxTrace : Board → Nat → XInt → XInt → Bool → XInt × Board × List TEntry
  | b, 0, _, _, _ => (.fin (heuristic b), b, [])
  | b, d + 1, alpha, beta, maximizing =>
    if checkWin b PLAYER || checkWin b OPPONENT || isBoardFull b then
      (.fin (heuristic b), b, [])
    else if maximizing then
      maxColT (fun b' a' => minimax b' d a' beta false) beta colsAsc b alpha .negInf
    else
      minColT (fun b' bt => minimax b' d alpha bt true) alpha colsAsc b beta .posInf

/-- A node of the easy search (`aStarSearch`).  The source's successor
objects carry only `board` and `move` at creation; `g` and `f` are
assigned by the search before insertion (they are initialised to 0
here).  `h` exists only on the start node (0 elsewhere and never read).
`path` is ghost instrumentation recording the column of every ply from
the start board to this node's board, in order; it affects no computed
value. -/
structure SNode where
  board : Board
  move : Option Nat
  g : Int
  h : Int
  f : Int
  path : List Nat
deriving DecidableEq

/-- Source `generateSuccessors(board, player)`: for each column ascending, drop
`player` at the first empty cell from the bottom (if any) on a copy of
the board, recording the column as `move`. -/
def generateSuccessors (b : Board) (player : Nat) : List SNode :=
  (List.range 7).filterMap fun c =>
    (rowsBottomUp.find? fun r => cellAt b r c == EMPTY).map fun r =>
      { board := setCell b r c player, move := some c, g := 0, h := 0, f := 0, path := [] }

/-- Stable insertion into a list sorted by ascending `f`: the new node
goes before the first node whose `f` is not smaller. -/
def sortInsert (n : SNode) : List SNode → List SNode
  | [] => [n]
  | m :: ms => if n.f ≤ m.f then n :: m :: ms else m :: sortInsert n ms

/-- Stable sort of the open list by ascending `f`, modelling
`openList.sort((a, b) => a.f - b.f)` (JavaScript's sort is stable). -/
def sortByF : List SNode → List SNode
  | [] => []
  | n :: ns => sortInsert n (sortByF ns)

/-- One pass of the `while` loop of `aStarSearch`, with explicit `fuel`
standing in for the unbounded loop: `none` means the fuel ran out before
the loop finished, `some none` models the source's `return null` (open
list exhausted), `some (some n)` a found node.  Each iteration sorts the
open list, pops the minimum-`f` node, pushes it on the closed list,
returns it if `OPPONENT` has won on its board, and otherwise inserts
its successors, skipping boards already closed and boards already open
with an equal-or-smaller `f`. -/
def aStarLoop (player : Nat) : Nat → List SNode → List SNode → Option (Option SNode)
  | 0, _, _ => none
  | fuel + 1, openL, closedL =>
    match sortByF openL with
    | [] => some none
    | cur :: rest =>
      let closed' := closedL ++ [cur]
      if checkWin cur.board OPPONENT then some (some cur)
      else
        let succs := generateSuccessors cur.board player
        let newOpen := succs.foldl (fun acc s =>
          if closed'.any fun n => n.board == s.board then acc
          else
            let s' := { s with g := cur.g + 1, f := cur.g + 1,
                               path := cur.path ++ s.move.toList }
            match acc.find? fun n => n.board == s.board with
            | some ex => if s'.f < ex.f then acc ++ [s'] else acc
            | none => acc ++ [s']) rest
        aStarLoop player fuel newOpen closed'

/-- Modelled from the spec: the source calls `heuristicEasy(board)` when
building the start node, but no function of that name is defined
anywhere in the program.  The spec says the start node's heuristic is
the hard-mode evaluator reused ("heuristic = Evaluator(board)"), so it
is modelled as `heuristic`.  The start node's `h` (and hence its `f`)
is never compared against any other node, so no search result depends
on this value. -/
def heuristicEasy (b : Board) : Int := heuristic b

/-- Source `aStarSearch(board, player)`: start from the current board with
`g = 0`, `h = heuristicEasy(board)`, `f = g + h`, then loop. -/
def aStarSearch (b : Board) (player : Nat) (fuel : Nat) : Option (Option SNode) :=
  aStarLoop player fuel
    [{ board := b, move := none, g := 0, h := heuristicEasy b,
       f := 0 + heuristicEasy b, path := [] }] []

/-- The easy branch of `bestMove`: run the search; if it finds a node,
return that node's recorded `move` (which is `null` for the start
node), else fall back to `Math.floor(Math.random() * COLS)`, modelled
by the parameter `rand`.  The outer `Option` is the fuel bound; the
inner `Option Nat` is the JavaScript return value (`none` = `null`). -/
def bestMoveEasy (fuel : Nat) (b : Board) (rand : Nat) : Option (Option Nat) :=
  match aStarSearch b OPPONENT fuel with
  | none => none
  | some none => some (some rand)
  | some (some n) => some n.move

/-- Source `placePiece(col, player)`: set the first empty cell of the column
from the bottom; if the column has no empty cell the loop falls through
and the board is unchanged (no error of any kind). -/
def placePiece (b : Board) (col : Nat) (player : Nat) : Board :=
  match rowsBottomUp.find? fun r => cellAt b r col == EMPTY with
  | some r => setCell b r col player
  | none => b

/-- Wrapper `placePiece` with a possibly negative column (the AI move can be
`-1` when no column is open; `board[r][-1]` is never `EMPTY` in the
source, so nothing is placed). -/
def placePieceI (b : Board) (col : Int) (player : Nat) : Board :=
  if col < 0 then b else placePiece b col.toNat player

/-- The outcome of one iteration of `playGame`'s question callback. -/
inductive TurnResult where
  | invalid
  | playerWin (b : Board)
  | drawAfterPlayer (b : Board)
  | opponentWin (b : Board)
  | drawAfterOpponent (b : Board)
  | continued (b : Board)
deriving DecidableEq

/-- The second half of a turn: `playGame` computes the AI move with
`bestMove(board)` — the `difficulty` argument is not passed, so it is
`undefined`, which is not `'easy'`, and the hard branch runs — then
places the opponent's piece and checks the terminal conditions. -/
def opponentPhase (b : Board) : TurnResult :=
  let res := bestMoveHard b
  let b2 := placePieceI res.2 res.1 OPPONENT
  if checkWin b2 OPPONENT then .opponentWin b2
  else if isBoardFull b2 then .drawAfterOpponent b2
  else .continued b2

/-- One iteration of `playGame`: validate the column (range check
only), place the player's piece, check the player's terminal
conditions, then run the opponent phase.  Out-of-range input re-prompts
(`invalid`) without touching the board. -/
def playTurn (b : Board) (col : Int) : TurnResult :=
  if 0 ≤ col && col < 7 then
    let b1 := placePieceI b col PLAYER
    if checkWin b1 PLAYER then .playerWin b1
    else if isBoardFull b1 then .drawAfterPlayer b1
    else opponentPhase b1
  else .invalid

/-- Swap every `PLAYER` cell with `OPPONENT` and vice versa. -/
def swapCell (v : Nat) : Nat :=
  if v == PLAYER then OPPONENT else if v == OPPONENT then PLAYER else v

/-- Swap the two sides on a whole board. -/
def swapBoard (b : Board) : Board := b.map fun row => row.map swapCell

/-- Column `c` has at least one empty cell among the six rows. -/
def colHasEmpty (b : Board) (c : Nat) : Bool :=
  rowsBottomUp.any fun r => cellAt b r c == EMPTY

/-- The empty 6 × 7 board. -/
def emptyBoard : Board := List.replicate 6 (List.replicate 7 0)

example : colHasEmpty emptyBoard 3 = true := by decide
example : placePiece emptyBoard 3 PLAYER = setCell emptyBoard 5 3 PLAYER := by decide

/-- Setting a cell that currently holds 0 and then writing 0 back to it
restores the row exactly (also when the index is out of range, where
both writes are no-ops). -/
theorem rowRestore : ∀ (row : List Nat) (c v : Nat), row.getD c 0 = 0 →
    (row.set c v).set c 0 = row := by
  intro row
  induction row with
  | nil => intro c v _; rfl
  | cons x xs ih =>
    intro c v h
    cases c with
    | zero => simp only [List.getD_cons_zero] at h; simp [h]
    | succ c => simp only [List.getD_cons_succ] at h; simp [ih c v h]

/-- Placing a piece on an empty cell and then writing `EMPTY` back
restores the board exactly. -/
theorem setCell_restore : ∀ (b : Board) (r c v : Nat), cellAt b r c = EMPTY →
    setCell (setCell b r c v) r c EMPTY = b := by
  intro b
  induction b with
  | nil => intro r c v _; rfl
  | cons row rest ih =>
    intro r c v h
    cases r with
    | zero =>
      simp only [cellAt, List.getD_cons_zero] at h
      simp only [setCell, EMPTY, List.set_cons_zero, List.getD_cons_zero]
      rw [rowRestore row c v h]
    | succ r =>
      simp only [cellAt, List.getD_cons_succ] at h
      simp only [setCell, EMPTY, List.set_cons_succ, List.getD_cons_succ]
      have := ih r c v h
      simp only [setCell, EMPTY] at this
      rw [this]

/-- The maximizing row loop hands back exactly the board it was given,
provided the recursive evaluator does. -/
theorem maxRowLoop_board (rec : Board → XInt → XInt × Board)
    (hrec : ∀ b a, (rec b a).2 = b) (col : Nat) (beta : XInt) :
    ∀ (rows : List Nat) (bd : Board) (alpha maxEval : XInt),
      (maxRowLoop rec col beta rows bd alpha maxEval).2.2 = bd := by
  intro rows
  induction rows with
  | nil => intro bd alpha me; rfl
  | cons r rs ih =>
    intro bd alpha me
    cases hc : cellAt bd r col == EMPTY with
    | false => simp only [maxRowLoop, hc, Bool.false_eq_true, if_neg, ite_false]; exact ih bd alpha me
    | true =>
      have hemp : cellAt bd r col = EMPTY := by
        simpa using hc
      simp only [maxRowLoop, hc, ite_true]
      rw [hrec]
      rw [setCell_restore bd r col OPPONENT hemp]
      split
      · rfl
      · exact ih bd _ _

/-- The minimizing row loop hands back exactly the board it was given,
provided the recursive evaluator does. -/
theorem minRowLoop_board (rec : Board → XInt → XInt × Board)
    (hrec : ∀ b a, (rec b a).2 = b) (col : Nat) (alpha : XInt) :
    ∀ (rows : List Nat) (bd : Board) (beta minEval : XInt),
      (minRowLoop rec col alpha rows bd beta minEval).2.2 = bd := by
  intro rows
  induction rows with
  | nil => intro bd beta me; rfl
  | cons r rs ih =>
    intro bd beta me
    cases hc : cellAt bd r col == EMPTY with
    | false => simp only [minRowLoop, hc, Bool.false_eq_true, ite_false]; exact ih bd beta me
    | true =>
      have hemp : cellAt bd r col = EMPTY := by simpa using hc
      simp only [minRowLoop, hc, ite_true]
      rw [hrec]
      rw [setCell_restore bd r col PLAYER hemp]
      split
      · rfl
      · exact ih bd _ _

/-- The maximizing column loop preserves the board. -/
theorem maxColLoop_board (rec : Board → XInt → XInt × Board)
    (hrec : ∀ b a, (rec b a).2 = b) (beta : XInt) :
    ∀ (cols : List Nat) (bd : Board) (alpha maxEval : XInt),
      (maxColLoop rec beta cols bd alpha maxEval).2 = bd := by
  intro cols
  induction cols with
  | nil => intro bd alpha me; rfl
  | cons c cs ih =>
    intro bd alpha me
    simp only [maxColLoop]
    rw [ih, maxRowLoop_board rec hrec c beta rowsBottomUp bd alpha me]

/-- The minimizing column loop preserves the board. -/
theorem minColLoop_board (rec : Board → XInt → XInt × Board)
    (hrec : ∀ b a, (rec b a).2 = b) (alpha : XInt) :
    ∀ (cols : List Nat) (bd : Board) (beta minEval : XInt),
      (minColLoop rec alpha cols bd beta minEval).2 = bd := by
  intro cols
  induction cols with
  | nil => intro bd beta me; rfl
  | cons c cs ih =>
    intro bd beta me
    simp only [minColLoop]
    rw [ih, minRowLoop_board rec hrec c alpha rowsBottomUp bd beta me]

/-- Function `minimax` hands back the board it was given on every path: each
placement it makes is undone, including when the pruning break fires. -/
theorem minimax_board : ∀ (d : Nat) (b : Board) (alpha beta : XInt) (mx : Bool),
    (minimax b d alpha beta mx).2 = b := by
  intro d
  induction d with
  | zero => intro b alpha beta mx; rfl
  | succ d ih =>
    intro b alpha beta mx
    rw [minimax]
    split
    · rfl
    · split
      · exact maxColLoop_board _ (fun b' a' => ih b' a' beta false) beta colsAsc b alpha .negInf
      · exact minColLoop_board _ (fun b' bt => ih b' alpha bt true) alpha colsAsc b beta .posInf

/-- The hard-mode driver loop preserves the board. -/
theorem bestLoop_board : ∀ (cols : List Nat) (bd : Board) (bestScore : XInt) (move : Int),
    (bestLoop cols bd bestScore move).2 = bd := by
  intro cols
  induction cols with
  | nil => intro bd bs mv; rfl
  | cons c cs ih =>
    intro bd bs mv
    rw [bestLoop]
    cases hf : rowsBottomUp.find? fun r => cellAt bd r c == EMPTY with
    | none => exact ih bd bs mv
    | some r =>
      have hemp : cellAt bd r c = EMPTY := by
        have := List.find?_some hf
        simpa using this
      simp only
      rw [minimax_board, setCell_restore bd r c OPPONENT hemp]
      split
      · exact ih bd _ _
      · exact ih bd _ _

/-- C5: for every board, depth, bounds and mode, the board handed back
by `minimax` is exactly the board passed in — every hypothetical
placement is undone on every path, including paths where the pruning
break fires — and likewise for the hard branch of `bestMove`. -/
theorem c5_hard_search_preserves_board (b : Board) (d : Nat) (alpha beta : XInt) (mx : Bool) :
    (minimax b d alpha beta mx).2 = b ∧ (bestMoveHard b).2 = b :=
  ⟨minimax_board d b alpha beta mx, bestLoop_board colsAsc b .negInf (-1)⟩

/-- C1 (evidence of the code bug at the failing input): one maximizing
layer of `minimax` on the empty board at depth 1 explores 42
hypothetical placements — every empty cell of every column, not one per
legal column — and in column 0 it places at rows 5, 4, 3, 2, 1 and 0,
although the lowest empty cell of column 0 is row 5; every placement
above row 5 sits above an `EMPTY` cell, violating the gravity
invariant.  The inner row loop of `minimax` has no unconditional break
after the undo (unlike the loops of `bestMove` and `placePiece`). -/
theorem c1_minimax_explores_floating_placements :
    (minimaxTrace emptyBoard 1 .negInf .posInf true).2.2.length = 42 ∧
    ((minimaxTrace emptyBoard 1 .negInf .posInf true).2.2.filter
        fun e => e.col == 0).map (fun e => e.row) = [5, 4, 3, 2, 1, 0] ∧
    cellAt emptyBoard 5 0 = EMPTY := by
  refine ⟨?_, ?_, ?_⟩ <;> decide

/-- C4 (counterexample): in a minimizing layer on the empty board at
depth 1 with `alpha = 1000000`, `beta = +Infinity`, the placement in
column 0 already makes `beta <= alpha` hold (its `betaAfter` is `-5`,
far below `alphaAfter = 1000000`), yet the layer goes on to examine one
placement in each of columns 1 through 6: the `break` leaves only the
inner row loop, not the column loop, so the remaining columns of the
layer are not pruned. -/
theorem c4_counterexample :
    (minimaxTrace emptyBoard 1 (.fin 1000000) .posInf false).2.2 =
      [⟨5, 0, .fin 1000000, .fin (-5)⟩, ⟨5, 1, .fin 1000000, .fin (-5)⟩,
       ⟨5, 2, .fin 1000000, .fin (-5)⟩, ⟨5, 3, .fin 1000000, .fin (-5)⟩,
       ⟨5, 4, .fin 1000000, .fin (-5)⟩, ⟨5, 5, .fin 1000000, .fin (-5)⟩,
       ⟨5, 6, .fin 1000000, .fin (-5)⟩] ∧
    xle (XInt.fin (-5)) (XInt.fin 1000000) = true := by
  exact ⟨by decide, by decide⟩

/-- A board on which the AI (playing second both pieces of a horizontal
threat) needs two moves to win: `OPPONENT` occupies (5,0) and (5,1),
columns 4–6 are filled with `PLAYER` pieces, and the only opponent
four-in-a-row reachable by stacking opponent pieces is the bottom row
cells (5,2) and (5,3). -/
def B2 : Board :=
  [[0, 0, 0, 0, 1, 1, 1],
   [0, 0, 0, 0, 1, 1, 1],
   [0, 0, 0, 0, 1, 1, 1],
   [0, 0, 0, 0, 1, 1, 1],
   [0, 0, 0, 0, 1, 1, 1],
   [2, 2, 0, 0, 1, 1, 1]]

/-- The node the easy search returns on `B2`: the winning board is
reached by the two-ply path `[2, 3]` (drop in column 2, then column 3),
and its recorded `move` is `3`, the column of the final ply. -/
def c2Node : SNode :=
  { board :=
      [[0, 0, 0, 0, 1, 1, 1],
       [0, 0, 0, 0, 1, 1, 1],
       [0, 0, 0, 0, 1, 1, 1],
       [0, 0, 0, 0, 1, 1, 1],
       [0, 0, 0, 0, 1, 1, 1],
       [2, 2, 2, 2, 1, 1, 1]],
    move := some 3, g := 2, h := 0, f := 2, path := [2, 3] }

/-- C2 (counterexample): on `B2` the easy search finds a winning node
whose path from the current board is `[2, 3]` — the first ply is column
2 — but the easy branch of `bestMove` returns 3, the column recorded on
the node, which is the column of the last ply, not the first. -/
theorem c2_counterexample :
    aStarSearch B2 OPPONENT 50 = some (some c2Node) ∧
    c2Node.path.head? = some 2 ∧
    bestMoveEasy 50 B2 0 = some (some 3) := by
  refine ⟨?_, ?_, ?_⟩ <;> decide

/-- A board whose only empty cell is (0,0), every other cell holding
`PLAYER`: stacking opponent pieces can never produce an opponent
four-in-a-row, so the easy search exhausts its open set. -/
def bFull41 : Board :=
  [[0, 1, 1, 1, 1, 1, 1],
   [1, 1, 1, 1, 1, 1, 1],
   [1, 1, 1, 1, 1, 1, 1],
   [1, 1, 1, 1, 1, 1, 1],
   [1, 1, 1, 1, 1, 1, 1],
   [1, 1, 1, 1, 1, 1, 1]]

/-- C3 (counterexample): `bFull41` has a legal column (column 0), yet
when the easy search exhausts, the fallback returns the raw random draw
— here 3 — although column 3 has no empty cell.  The fallback is
`Math.floor(Math.random() * COLS)`, not filtered to legal columns. -/
theorem c3_counterexample :
    colHasEmpty bFull41 0 = true ∧
    bestMoveEasy 50 bFull41 3 = some (some 3) ∧
    colHasEmpty bFull41 3 = false := by
  refine ⟨?_, ?_, ?_⟩ <;> decide

/-- Function `placePiece` into a column with no empty cell leaves the board
unchanged: the row scan finds nothing and the function falls through. -/
theorem placePiece_full_nop (b : Board) (col p : Nat)
    (h : ∀ r, r < 6 → cellAt b r col ≠ EMPTY) : placePiece b col p = b := by
  have hnone : (rowsBottomUp.find? fun r => cellAt b r col == EMPTY) = none := by
    rw [List.find?_eq_none]
    intro r hr
    have hr6 : r < 6 := by
      simp only [rowsBottomUp, List.mem_cons, List.not_mem_nil, or_false] at hr
      omega
    simpa using h r hr6
  rw [placePiece, hnone]

/-- A board whose column 0 is completely full, with only cell (0,6)
empty, and with no four-in-a-row for either side. -/
def W : Board :=
  [[1, 1, 2, 2, 1, 1, 0],
   [2, 2, 1, 1, 2, 2, 1],
   [1, 1, 2, 2, 1, 1, 2],
   [2, 2, 1, 1, 2, 2, 1],
   [1, 1, 2, 2, 1, 1, 2],
   [2, 2, 1, 1, 2, 2, 1]]

/-- C6 (amended): an attempted drop into a column with no empty cell is
silently absorbed — `placePiece` leaves the board unchanged and raises
no error of any kind. -/
theorem c6_amended (b : Board) (col p : Nat)
    (h : ∀ r, r < 6 → cellAt b r col ≠ EMPTY) : placePiece b col p = b :=
  placePiece_full_nop b col p h

/-- Witness for `c6_amended` at the concrete board `W`, whose column 0
is full. -/
theorem c6_amended_witness :
    (∀ r, r < 6 → cellAt W r 0 ≠ EMPTY) ∧ placePiece W 0 PLAYER = W :=
  ⟨by decide, c6_amended W 0 PLAYER (by decide)⟩

/-- C6 (counterexample): on `W`, whose column 0 has no empty cell, a
drop into column 0 leaves the board unchanged with no failure — there
is no assertion or error anywhere in `placePiece` — and the engine's
validation (a range check only) lets this drop through: the turn at
column 0 is processed rather than rejected. -/
theorem c6_counterexample :
    colHasEmpty W 0 = false ∧ placePiece W 0 PLAYER = W ∧
    playTurn W 0 ≠ TurnResult.invalid := by
  refine ⟨?_, ?_, ?_⟩ <;> decide

/-- C10: when the human submits an in-range column whose column is
already full (and the board has no player win and is not full, so the
turn does not end first), the engine accepts the input: the player's
placement is silently skipped, the board entering the AI phase is the
unchanged board, and the engine still computes and applies the
Opponent's move — the human forfeits the turn.  No error outcome is
produced. -/
theorem c10_full_column_forfeits_turn (b : Board) (col : Int)
    (h0 : 0 ≤ col) (h7 : col < 7)
    (hfull : ∀ r, r < 6 → cellAt b r col.toNat ≠ EMPTY)
    (hwin : checkWin b PLAYER = false) (hb : isBoardFull b = false) :
    playTurn b col = opponentPhase b ∧ playTurn b col ≠ TurnResult.invalid := by
  have hno : placePieceI b col PLAYER = b := by
    rw [placePieceI, if_neg (by omega)]
    exact placePiece_full_nop b col.toNat PLAYER hfull
  have hcond : (decide (0 ≤ col) && decide (col < 7)) = true := by
    simp [h0, h7]
  constructor
  · rw [playTurn]
    simp only [hcond, if_true, hno, hwin, hb, Bool.false_eq_true, if_false]
  · rw [playTurn]
    simp only [hcond, if_true, hno, hwin, hb, Bool.false_eq_true, if_false]
    rw [opponentPhase]
    split
    · intro hcontra; cases hcontra
    · split
      · intro hcontra; cases hcontra
      · intro hcontra; cases hcontra

/-- Witness for `c10_full_column_forfeits_turn` at the concrete board
`W` (column 0 full, board not full, no player win): the turn at column
0 proceeds straight to the opponent phase on the unchanged board. -/
theorem c10_witness :
    (0 : Int) ≤ 0 ∧ (0 : Int) < 7 ∧ checkWin W PLAYER = false ∧
    isBoardFull W = false ∧ playTurn W 0 = opponentPhase W :=
  ⟨by decide, by decide, by decide, by decide,
   (c10_full_column_forfeits_turn W 0 (by decide) (by decide) (by decide)
     (by decide) (by decide)).1⟩

/-- The three classification counts of a window sum to the number of
in-bounds cells among the inspected steps. -/
theorem countCells_sum (b : Board) (row col p : Nat) (dR dC : Int) :
    ∀ l : List Nat,
      (countCells b row col p dR dC l).1 + (countCells b row col p dR dC l).2.1 +
        (countCells b row col p dR dC l).2.2 =
      l.countP fun i : Nat => inBounds ((row : Int) + (i : Int) * dR) ((col : Int) + (i : Int) * dC) := by
  intro l
  induction l with
  | nil => rfl
  | cons i is ih =>
    rcases hcc : countCells b row col p dR dC is with ⟨cp, co, ce⟩
    rw [hcc] at ih
    simp only [Prod.fst, Prod.snd] at ih
    cases hin : inBounds ((row : Int) + (i : Int) * dR) ((col : Int) + (i : Int) * dC) with
    | true =>
      simp only [countCells, hcc, hin, if_true, List.countP_cons]
      repeat' split
      all_goals try simp
      all_goals omega
    | false =>
      simp only [countCells, hcc, hin, List.countP_cons, Bool.false_eq_true, if_false]
      simp
      try omega

/-- A list with a member failing the predicate has fewer matches than
elements. -/
theorem countP_lt_of_mem_false {α : Type} (pred : α → Bool) :
    ∀ (l : List α) (a : α), a ∈ l → pred a = false → l.countP pred < l.length := by
  intro l
  induction l with
  | nil => intro a ha _; cases ha
  | cons x xs ih =>
    intro a ha hfalse
    rw [List.countP_cons, List.length_cons]
    rcases List.mem_cons.mp ha with rfl | hmem
    · rw [hfalse]
      simp only [Bool.false_eq_true, if_false]
      have := List.countP_le_length (p := pred) (l := xs)
      omega
    · have hlt := ih a hmem hfalse
      split <;> omega

/-- C8: a 4-cell window that runs off the edge of the board (some of
its four steps is out of bounds) contributes exactly 0 to the
evaluator: every scoring branch of `evaluateLine` requires its two
counts to add up to 4, but the counts only cover in-bounds cells, of
which such a window has at most 3. -/
theorem c8_clipped_window_scores_zero (b : Board) (row col p : Nat) (dR dC : Int)
    (h : ∃ i : Nat, i < 4 ∧
      inBounds ((row : Int) + (i : Int) * dR) ((col : Int) + (i : Int) * dC) = false) :
    dirScore b row col p dR dC = 0 := by
  obtain ⟨i, hi4, hoob⟩ := h
  have hmem : i ∈ ([0, 1, 2, 3] : List Nat) := by
    have : i = 0 ∨ i = 1 ∨ i = 2 ∨ i = 3 := by omega
    rcases this with rfl | rfl | rfl | rfl <;> decide
  have hcnt := countP_lt_of_mem_false
    (fun j : Nat => inBounds ((row : Int) + (j : Int) * dR) ((col : Int) + (j : Int) * dC))
    [0, 1, 2, 3] i hmem hoob
  have hsum := countCells_sum b row col p dR dC [0, 1, 2, 3]
  rcases hcc : countCells b row col p dR dC [0, 1, 2, 3] with ⟨cp, co, ce⟩
  rw [hcc] at hsum
  simp only [Prod.fst, Prod.snd, List.length_cons, List.length_nil] at hsum hcnt
  have hle : cp + co + ce ≤ 3 := by omega
  have g1 : (cp == 3 && ce == 1) = false := by
    rw [Bool.and_eq_false_iff]
    by_cases h3 : cp = 3
    · right; simp [beq_iff_eq]; omega
    · left; simp [beq_iff_eq]; omega
  have g2 : (co == 3 && ce == 1) = false := by
    rw [Bool.and_eq_false_iff]
    by_cases h3 : co = 3
    · right; simp [beq_iff_eq]; omega
    · left; simp [beq_iff_eq]; omega
  have g3 : (cp == 2 && ce == 2) = false := by
    rw [Bool.and_eq_false_iff]
    by_cases h3 : cp = 2
    · right; simp [beq_iff_eq]; omega
    · left; simp [beq_iff_eq]; omega
  have g4 : (co == 2 && ce == 2) = false := by
    rw [Bool.and_eq_false_iff]
    by_cases h3 : co = 2
    · right; simp [beq_iff_eq]; omega
    · left; simp [beq_iff_eq]; omega
  have g5 : (cp == 1 && ce == 3) = false := by
    rw [Bool.and_eq_false_iff]
    by_cases h3 : cp = 1
    · right; simp [beq_iff_eq]; omega
    · left; simp [beq_iff_eq]; omega
  have g6 : (co == 1 && ce == 3) = false := by
    rw [Bool.and_eq_false_iff]
    by_cases h3 : co = 1
    · right; simp [beq_iff_eq]; omega
    · left; simp [beq_iff_eq]; omega
  simp only [dirScore, hcc, Prod.fst, Prod.snd, g1, g2, g3, g4, g5, g6,
    Bool.false_eq_true, if_false]
  ring

/-- Witness for `c8_clipped_window_scores_zero`: the vertical window
anchored at the bottom-left cell of the empty board leaves the grid at
its second step, and scores 0. -/
theorem c8_witness :
    inBounds ((5 : Int) + (1 : Int) * 1) ((0 : Int) + (1 : Int) * 0) = false ∧
    dirScore emptyBoard 5 0 PLAYER 1 0 = 0 :=
  ⟨by decide, c8_clipped_window_scores_zero emptyBoard 5 0 PLAYER 1 0
    ⟨1, by omega, by decide⟩⟩

/-- Reading a row through `swapCell` commutes with `getD` (the default
cell 0 is a fixed point of the swap). -/
theorem getD_map_swapCell : ∀ (l : List Nat) (c : Nat),
    (l.map swapCell).getD c 0 = swapCell (l.getD c 0) := by
  intro l
  induction l with
  | nil => intro c; rfl
  | cons x xs ih =>
    intro c
    cases c with
    | zero => rfl
    | succ c => simpa using ih c

/-- Reading a swapped board reads the swapped cell. -/
theorem cellAt_swapBoard : ∀ (b : Board) (r c : Nat),
    cellAt (swapBoard b) r c = swapCell (cellAt b r c) := by
  intro b
  induction b with
  | nil => intro r c; rfl
  | cons row rest ih =>
    intro r c
    cases r with
    | zero =>
      simp only [swapBoard, cellAt, List.map_cons, List.getD_cons_zero]
      exact getD_map_swapCell row c
    | succ r =>
      simp only [swapBoard, cellAt, List.map_cons, List.getD_cons_succ]
      exact ih r c

/-- A swapped cell equals `OPPONENT` exactly when the original equals
`PLAYER`. -/
theorem swapCell_beq_OPPONENT (v : Nat) : (swapCell v == OPPONENT) = (v == PLAYER) := by
  by_cases h1 : v = 1 <;> by_cases h2 : v = 2 <;>
    simp [swapCell, PLAYER, OPPONENT, h1, h2]

/-- A swapped cell equals `PLAYER` exactly when the original equals
`OPPONENT`. -/
theorem swapCell_beq_PLAYER (v : Nat) : (swapCell v == PLAYER) = (v == OPPONENT) := by
  by_cases h1 : v = 1 <;> by_cases h2 : v = 2 <;>
    simp [swapCell, PLAYER, OPPONENT, h1, h2]

/-- Window counts for `OPPONENT` on the swapped board coincide with the
counts for `PLAYER` on the original board. -/
theorem countCells_swap_opp (b : Board) (row col : Nat) (dR dC : Int) : ∀ l : List Nat,
    countCells (swapBoard b) row col OPPONENT dR dC l = countCells b row col PLAYER dR dC l := by
  intro l
  induction l with
  | nil => rfl
  | cons i is ih =>
    have e1 : (if (OPPONENT == PLAYER) = true then OPPONENT else PLAYER) = PLAYER := rfl
    have e2 : (if (PLAYER == PLAYER) = true then OPPONENT else PLAYER) = OPPONENT := rfl
    simp only [countCells, ih, cellAt_swapBoard, e1, e2, swapCell_beq_OPPONENT,
      swapCell_beq_PLAYER]

/-- Window counts for `PLAYER` on the swapped board coincide with the
counts for `OPPONENT` on the original board. -/
theorem countCells_swap_pl (b : Board) (row col : Nat) (dR dC : Int) : ∀ l : List Nat,
    countCells (swapBoard b) row col PLAYER dR dC l = countCells b row col OPPONENT dR dC l := by
  intro l
  induction l with
  | nil => rfl
  | cons i is ih =>
    have e1 : (if (OPPONENT == PLAYER) = true then OPPONENT else PLAYER) = PLAYER := rfl
    have e2 : (if (PLAYER == PLAYER) = true then OPPONENT else PLAYER) = OPPONENT := rfl
    simp only [countCells, ih, cellAt_swapBoard, e1, e2, swapCell_beq_OPPONENT,
      swapCell_beq_PLAYER]

/-- Function `evaluateLine` for `OPPONENT` on the swapped board equals
`evaluateLine` for `PLAYER` on the original, and vice versa. -/
theorem evaluateLine_swap_opp (b : Board) (row col : Nat) :
    evaluateLine (swapBoard b) row col OPPONENT = evaluateLine b row col PLAYER := by
  simp only [evaluateLine, dirScore, countCells_swap_opp]

/-- Mirror of `evaluateLine_swap_opp`. -/
theorem evaluateLine_swap_pl (b : Board) (row col : Nat) :
    evaluateLine (swapBoard b) row col PLAYER = evaluateLine b row col OPPONENT := by
  simp only [evaluateLine, dirScore, countCells_swap_pl]

/-- Per-cell score negates under the side swap. -/
theorem cellScore_swap (b : Board) (row col : Nat) :
    cellScore (swapBoard b) row col = -cellScore b row col := by
  simp only [cellScore, cellAt_swapBoard, swapCell_beq_OPPONENT, swapCell_beq_PLAYER,
    evaluateLine_swap_opp, evaluateLine_swap_pl]
  by_cases h1 : cellAt b row col = 1 <;> by_cases h2 : cellAt b row col = 2 <;>
    simp [PLAYER, OPPONENT, h1, h2]

/-- Summing the pointwise negation negates the sum. -/
theorem sum_map_neg (f : Nat → Int) : ∀ l : List Nat,
    (l.map fun x => -f x).sum = -(l.map f).sum := by
  intro l
  induction l with
  | nil => simp
  | cons x xs ih => simp [ih]; ring

/-- C9: the evaluator is antisymmetric under swapping every `PLAYER`
cell with an `OPPONENT` cell: `heuristic (swapBoard b) = -heuristic b`
for every board (each cell's classification, and hence each window
count, transfers to the other side unchanged, flipping only the sign
of the per-cell contribution). -/
theorem c9_heuristic_antisymmetric (b : Board) :
    heuristic (swapBoard b) = -heuristic b := by
  simp only [heuristic, cellScore_swap]
  rw [show ((List.range 6).map fun row =>
        ((List.range 7).map fun col => -cellScore b row col).sum) =
      ((List.range 6).map fun row =>
        -(((List.range 7).map fun col => cellScore b row col).sum)) from by
    refine List.map_congr_left ?_
    intro row _
    exact sum_map_neg (fun col => cellScore b row col) (List.range 7)]
  exact sum_map_neg (fun row => ((List.range 7).map fun col => cellScore b row col).sum)
    (List.range 6)

/-- Writing one cell preserves board well-formedness. -/
theorem setCell_WF (b : Board) (r c v : Nat) (h : WF b) : WF (setCell b r c v) := by
  obtain ⟨hlen, hrows⟩ := h
  by_cases hr : r < b.length
  · constructor
    · rw [setCell, List.length_set, hlen]
    · intro row' hmem
      rcases List.mem_or_eq_of_mem_set hmem with hin | rfl
      · exact hrows row' hin
      · rw [List.length_set]
        have hget : b.getD r [] = b[r] := List.getD_eq_getElem b [] hr
        rw [hget]
        exact hrows b[r] (List.getElem_mem hr)
  · rw [setCell, List.set_eq_of_length_le (by omega)]
    exact ⟨hlen, hrows⟩

/-- Operation `xmax` of a non-`posInf` accumulator and a finite value is finite. -/
theorem xmax_fin (me : XInt) (n : Int) (h : me ≠ .posInf) :
    ∃ m : Int, xmax me (.fin n) = .fin m := by
  cases me with
  | negInf => exact ⟨n, rfl⟩
  | posInf => exact absurd rfl h
  | fin a =>
    rw [xmax]
    split
    · exact ⟨n, rfl⟩
    · exact ⟨a, rfl⟩

/-- Operation `xmin` of a non-`negInf` accumulator and a finite value is finite. -/
theorem xmin_fin (me : XInt) (n : Int) (h : me ≠ .negInf) :
    ∃ m : Int, xmin me (.fin n) = .fin m := by
  cases me with
  | posInf => exact ⟨n, rfl⟩
  | negInf => exact absurd rfl h
  | fin a =>
    rw [xmin]
    split
    · exact ⟨a, rfl⟩
    · exact ⟨n, rfl⟩

/-- The maximizing row loop: the accumulator never becomes `posInf`,
stays finite once finite, and becomes finite as soon as some listed row
of the column is empty. -/
theorem maxRowLoop_fin (rec : Board → XInt → XInt × Board)
    (hrecb : ∀ b a, (rec b a).2 = b)
    (hrecf : ∀ b a, WF b → ∃ n : Int, (rec b a).1 = .fin n)
    (col : Nat) (beta : XInt) :
    ∀ (rows : List Nat) (bd : Board) (alpha maxEval : XInt), WF bd →
      maxEval ≠ .posInf →
      (maxRowLoop rec col beta rows bd alpha maxEval).1 ≠ .posInf ∧
      ((∃ n : Int, maxEval = .fin n) →
        ∃ n : Int, (maxRowLoop rec col beta rows bd alpha maxEval).1 = .fin n) ∧
      ((∃ r ∈ rows, cellAt bd r col = EMPTY) →
        ∃ n : Int, (maxRowLoop rec col beta rows bd alpha maxEval).1 = .fin n) := by
  intro rows
  induction rows with
  | nil =>
    intro bd alpha me hwf hme
    refine ⟨hme, fun h => h, fun h => ?_⟩
    obtain ⟨r, hr, _⟩ := h
    cases hr
  | cons r rs ih =>
    intro bd alpha me hwf hme
    cases hc : cellAt bd r col == EMPTY with
    | false =>
      simp only [maxRowLoop, hc, Bool.false_eq_true, ite_false]
      obtain ⟨h1, h2, h3⟩ := ih bd alpha me hwf hme
      refine ⟨h1, h2, fun hex => ?_⟩
      obtain ⟨r', hr', hemp'⟩ := hex
      rcases List.mem_cons.mp hr' with rfl | hmem
      · rw [hemp'] at hc; simp at hc
      · exact h3 ⟨r', hmem, hemp'⟩
    | true =>
      have hemp : cellAt bd r col = EMPTY := by simpa using hc
      obtain ⟨n, hn⟩ := hrecf (setCell bd r col OPPONENT) alpha
        (setCell_WF bd r col OPPONENT hwf)
      simp only [maxRowLoop, hc, ite_true, hrecb, setCell_restore bd r col OPPONENT hemp, hn]
      obtain ⟨m, hm⟩ := xmax_fin me n hme
      rw [hm]
      split
      · exact ⟨by simp, fun _ => ⟨m, rfl⟩, fun _ => ⟨m, rfl⟩⟩
      · obtain ⟨h1, h2, h3⟩ := ih bd (xmax alpha (.fin n)) (.fin m) hwf (by simp)
        exact ⟨h1, fun _ => h2 ⟨m, rfl⟩, fun _ => h2 ⟨m, rfl⟩⟩

/-- Dual of `maxRowLoop_fin` for the minimizing row loop. -/
theorem minRowLoop_fin (rec : Board → XInt → XInt × Board)
    (hrecb : ∀ b a, (rec b a).2 = b)
    (hrecf : ∀ b a, WF b → ∃ n : Int, (rec b a).1 = .fin n)
    (col : Nat) (alpha : XInt) :
    ∀ (rows : List Nat) (bd : Board) (beta minEval : XInt), WF bd →
      minEval ≠ .negInf →
      (minRowLoop rec col alpha rows bd beta minEval).1 ≠ .negInf ∧
      ((∃ n : Int, minEval = .fin n) →
        ∃ n : Int, (minRowLoop rec col alpha rows bd beta minEval).1 = .fin n) ∧
      ((∃ r ∈ rows, cellAt bd r col = EMPTY) →
        ∃ n : Int, (minRowLoop rec col alpha rows bd beta minEval).1 = .fin n) := by
  intro rows
  induction rows with
  | nil =>
    intro bd beta me hwf hme
    refine ⟨hme, fun h => h, fun h => ?_⟩
    obtain ⟨r, hr, _⟩ := h
    cases hr
  | cons r rs ih =>
    intro bd beta me hwf hme
    cases hc : cellAt bd r col == EMPTY with
    | false =>
      simp only [minRowLoop, hc, Bool.false_eq_true, ite_false]
      obtain ⟨h1, h2, h3⟩ := ih bd beta me hwf hme
      refine ⟨h1, h2, fun hex => ?_⟩
      obtain ⟨r', hr', hemp'⟩ := hex
      rcases List.mem_cons.mp hr' with rfl | hmem
      · rw [hemp'] at hc; simp at hc
      · exact h3 ⟨r', hmem, hemp'⟩
    | true =>
      have hemp : cellAt bd r col = EMPTY := by simpa using hc
      obtain ⟨n, hn⟩ := hrecf (setCell bd r col PLAYER) beta
        (setCell_WF bd r col PLAYER hwf)
      simp only [minRowLoop, hc, ite_true, hrecb, setCell_restore bd r col PLAYER hemp, hn]
      obtain ⟨m, hm⟩ := xmin_fin me n hme
      rw [hm]
      split
      · exact ⟨by simp, fun _ => ⟨m, rfl⟩, fun _ => ⟨m, rfl⟩⟩
      · obtain ⟨h1, h2, h3⟩ := ih bd (xmin beta (.fin n)) (.fin m) hwf (by simp)
        exact ⟨h1, fun _ => h2 ⟨m, rfl⟩, fun _ => h2 ⟨m, rfl⟩⟩

/-- The maximizing column loop: the accumulator becomes finite as soon
as some listed column has an empty cell (and stays finite). -/
theorem maxColLoop_fin (rec : Board → XInt → XInt × Board)
    (hrecb : ∀ b a, (rec b a).2 = b)
    (hrecf : ∀ b a, WF b → ∃ n : Int, (rec b a).1 = .fin n)
    (beta : XInt) :
    ∀ (cols : List Nat) (bd : Board) (alpha maxEval : XInt), WF bd →
      maxEval ≠ .posInf →
      (maxColLoop rec beta cols bd alpha maxEval).1 ≠ .posInf ∧
      ((∃ n : Int, maxEval = .fin n) →
        ∃ n : Int, (maxColLoop rec beta cols bd alpha maxEval).1 = .fin n) ∧
      ((∃ c ∈ cols, ∃ r ∈ rowsBottomUp, cellAt bd r c = EMPTY) →
        ∃ n : Int, (maxColLoop rec beta cols bd alpha maxEval).1 = .fin n) := by
  intro cols
  induction cols with
  | nil =>
    intro bd alpha me hwf hme
    refine ⟨hme, fun h => h, fun h => ?_⟩
    obtain ⟨c, hc, _⟩ := h
    cases hc
  | cons c cs ih =>
    intro bd alpha me hwf hme
    obtain ⟨r1, r2, r3⟩ := maxRowLoop_fin rec hrecb hrecf c beta rowsBottomUp bd alpha me hwf hme
    have hbd : (maxRowLoop rec c beta rowsBottomUp bd alpha me).2.2 = bd :=
      maxRowLoop_board rec hrecb c beta rowsBottomUp bd alpha me
    simp only [maxColLoop, hbd]
    obtain ⟨h1, h2, h3⟩ := ih bd (maxRowLoop rec c beta rowsBottomUp bd alpha me).2.1
      (maxRowLoop rec c beta rowsBottomUp bd alpha me).1 hwf r1
    refine ⟨h1, fun hf => h2 (r2 hf), fun hex => ?_⟩
    obtain ⟨c', hc', hrow⟩ := hex
    rcases List.mem_cons.mp hc' with rfl | hmem
    · exact h2 (r3 hrow)
    · exact h3 ⟨c', hmem, hrow⟩

/-- Dual of `maxColLoop_fin` for the minimizing column loop. -/
theorem minColLoop_fin (rec : Board → XInt → XInt × Board)
    (hrecb : ∀ b a, (rec b a).2 = b)
    (hrecf : ∀ b a, WF b → ∃ n : Int, (rec b a).1 = .fin n)
    (alpha : XInt) :
    ∀ (cols : List Nat) (bd : Board) (beta minEval : XInt), WF bd →
      minEval ≠ .negInf →
      (minColLoop rec alpha cols bd beta minEval).1 ≠ .negInf ∧
      ((∃ n : Int, minEval = .fin n) →
        ∃ n : Int, (minColLoop rec alpha cols bd beta minEval).1 = .fin n) ∧
      ((∃ c ∈ cols, ∃ r ∈ rowsBottomUp, cellAt bd r c = EMPTY) →
        ∃ n : Int, (minColLoop rec alpha cols bd beta minEval).1 = .fin n) := by
  intro cols
  induction cols with
  | nil =>
    intro bd beta me hwf hme
    refine ⟨hme, fun h => h, fun h => ?_⟩
    obtain ⟨c, hc, _⟩ := h
    cases hc
  | cons c cs ih =>
    intro bd beta me hwf hme
    obtain ⟨r1, r2, r3⟩ := minRowLoop_fin rec hrecb hrecf c alpha rowsBottomUp bd beta me hwf hme
    have hbd : (minRowLoop rec c alpha rowsBottomUp bd beta me).2.2 = bd :=
      minRowLoop_board rec hrecb c alpha rowsBottomUp bd beta me
    simp only [minColLoop, hbd]
    obtain ⟨h1, h2, h3⟩ := ih bd (minRowLoop rec c alpha rowsBottomUp bd beta me).2.1
      (minRowLoop rec c alpha rowsBottomUp bd beta me).1 hwf r1
    refine ⟨h1, fun hf => h2 (r2 hf), fun hex => ?_⟩
    obtain ⟨c', hc', hrow⟩ := hex
    rcases List.mem_cons.mp hc' with rfl | hmem
    · exact h2 (r3 hrow)
    · exact h3 ⟨c', hmem, hrow⟩

/-- Every column index below 7 is scanned by the column loops. -/
theorem mem_colsAsc_of_lt (j : Nat) (h : j < 7) : j ∈ colsAsc := by
  interval_cases j <;> decide

/-- A board that is not full has an empty cell in row 0 of some column
below 7 (using well-formedness for the column bound). -/
theorem exists_empty_of_not_full (b : Board) (hwf : WF b)
    (hnf : isBoardFull b = false) : ∃ j, j < 7 ∧ cellAt b 0 j = EMPTY := by
  obtain ⟨hlen, hrows⟩ := hwf
  have h0 : 0 < b.length := by omega
  have hget : b.getD 0 [] = b[0] := List.getD_eq_getElem b [] h0
  have hrow : b[0].length = 7 := hrows b[0] (List.getElem_mem h0)
  rw [isBoardFull, hget] at hnf
  rw [List.all_eq_false] at hnf
  obtain ⟨x, hx, hxf⟩ := hnf
  obtain ⟨j, hj, hjx⟩ := List.mem_iff_getElem.mp hx
  refine ⟨j, by omega, ?_⟩
  rw [cellAt, hget, List.getD_eq_getElem b[0] 0 hj, hjx]
  simpa using hxf

/-- Function `minimax` always computes a finite score on a well-formed board:
terminal positions score via `heuristic`, and a non-terminal position
always has at least one empty cell in row 0 of some column, so each
layer's accumulator is updated at least once with a finite value. -/
theorem minimax_fin : ∀ (d : Nat) (b : Board) (alpha beta : XInt) (mx : Bool), WF b →
    ∃ n : Int, (minimax b d alpha beta mx).1 = .fin n := by
  intro d
  induction d with
  | zero => intro b alpha beta mx _; exact ⟨heuristic b, rfl⟩
  | succ d ih =>
    intro b alpha beta mx hwf
    rw [minimax]
    split
    · exact ⟨heuristic b, rfl⟩
    · rename_i hterm
      have hnf : isBoardFull b = false := by
        simp only [Bool.or_eq_true, not_or, Bool.not_eq_true] at hterm
        exact hterm.2
      obtain ⟨j, hj7, hje⟩ := exists_empty_of_not_full b hwf hnf
      have hex : ∃ c ∈ colsAsc, ∃ r ∈ rowsBottomUp, cellAt b r c = EMPTY :=
        ⟨j, mem_colsAsc_of_lt j hj7, 0, by decide, hje⟩
      split
      · exact (maxColLoop_fin _ (fun b' a' => minimax_board d b' a' beta false)
          (fun b' a' hw => ih b' a' beta false hw) beta colsAsc b alpha .negInf hwf
          (by simp)).2.2 hex
      · exact (minColLoop_fin _ (fun b' bt => minimax_board d b' alpha bt true)
          (fun b' bt hw => ih b' alpha bt true hw) alpha colsAsc b beta .posInf hwf
          (by simp)).2.2 hex

/-- The hard-mode driver loop keeps a legal chosen column: starting
from the sentinel `(move = -1, bestScore = -Infinity)`, the first
column with an empty cell always wins the strict comparison (its
`minimax` score is finite), and afterwards the recorded move is always
a column of the given board with an empty cell. -/
theorem bestLoop_legal :
    ∀ (cols : List Nat) (bd : Board) (bs : XInt) (mv : Int), WF bd →
      (∀ c ∈ cols, c < 7) →
      (mv = -1 ∧ bs = .negInf ∨
        (0 ≤ mv ∧ mv < 7 ∧ colHasEmpty bd mv.toNat = true ∧ ∃ n : Int, bs = .fin n)) →
      ((∃ c ∈ cols, colHasEmpty bd c = true) ∨
        (0 ≤ mv ∧ mv < 7 ∧ colHasEmpty bd mv.toNat = true)) →
      0 ≤ (bestLoop cols bd bs mv).1 ∧ (bestLoop cols bd bs mv).1 < 7 ∧
        colHasEmpty bd (bestLoop cols bd bs mv).1.toNat = true := by
  intro cols
  induction cols with
  | nil =>
    intro bd bs mv _ _ _ hex
    rcases hex with ⟨c, hc, _⟩ | hmv
    · cases hc
    · exact hmv
  | cons c cs ih =>
    intro bd bs mv hwf hlt hinv hex
    rw [bestLoop]
    cases hf : rowsBottomUp.find? fun r => cellAt bd r c == EMPTY with
    | none =>
      have hnc : colHasEmpty bd c = false := by
        rw [colHasEmpty, List.any_eq_false]
        intro r hr
        have := List.find?_eq_none.mp hf r hr
        simpa using this
      apply ih bd bs mv hwf (fun c' h => hlt c' (List.mem_cons_of_mem c h)) hinv
      rcases hex with ⟨c', hc', hce'⟩ | hmv
      · rcases List.mem_cons.mp hc' with rfl | hmem
        · rw [hce'] at hnc; cases hnc
        · exact Or.inl ⟨c', hmem, hce'⟩
      · exact Or.inr hmv
    | some r =>
      have hemp : cellAt bd r c = EMPTY := by simpa using List.find?_some hf
      have hce : colHasEmpty bd c = true := by
        rw [colHasEmpty, List.any_eq_true]
        exact ⟨r, List.mem_of_find?_eq_some hf, by simpa using hemp⟩
      obtain ⟨n, hn⟩ := minimax_fin MAX_DEPTH (setCell bd r c OPPONENT) .negInf .posInf false
        (setCell_WF bd r c OPPONENT hwf)
      simp only [minimax_board, setCell_restore bd r c OPPONENT hemp, hn]
      have hc7 : c < 7 := hlt c (List.mem_cons_self c cs)
      cases hx : xlt bs (.fin n) with
      | true =>
        simp only [hx, ite_true]
        apply ih bd (.fin n) (c : Int) hwf (fun c' h => hlt c' (List.mem_cons_of_mem c h))
        · exact Or.inr ⟨Int.ofNat_nonneg c, by exact_mod_cast hc7, by simpa using hce, n, rfl⟩
        · exact Or.inr ⟨Int.ofNat_nonneg c, by exact_mod_cast hc7, by simpa using hce⟩
      | false =>
        rcases hinv with ⟨rfl, rfl⟩ | hmv
        · rw [show xlt XInt.negInf (XInt.fin n) = true from rfl] at hx
          cases hx
        · simp only [hx, Bool.false_eq_true, ite_false]
          apply ih bd bs mv hwf (fun c' h => hlt c' (List.mem_cons_of_mem c h))
            (Or.inr hmv) (Or.inr ⟨hmv.1, hmv.2.1, hmv.2.2.1⟩)

/-- C3 (amended): on a well-formed board with at least one legal
column, the hard branch of `bestMove` returns a column in `[0, COLS)`
that has an empty cell; the easy-mode fallback taken when the open set
empties returns the raw uniformly random draw `rand` from `[0, COLS)`,
which is in range but need not be a legal column. -/
theorem c3_amended (b : Board) (hwf : WF b)
    (hleg : ∃ c, c < 7 ∧ colHasEmpty b c = true) :
    (0 ≤ (bestMoveHard b).1 ∧ (bestMoveHard b).1 < 7 ∧
      colHasEmpty b (bestMoveHard b).1.toNat = true) ∧
    (∀ fuel rand, rand < 7 → aStarSearch b OPPONENT fuel = some none →
      bestMoveEasy fuel b rand = some (some rand) ∧ rand < 7) := by
  constructor
  · obtain ⟨c, hc7, hce⟩ := hleg
    exact bestLoop_legal colsAsc b .negInf (-1) hwf (by decide)
      (Or.inl ⟨rfl, rfl⟩) (Or.inl ⟨c, mem_colsAsc_of_lt c hc7, hce⟩)
  · intro fuel rand h7 hsearch
    rw [bestMoveEasy, hsearch]
    exact ⟨rfl, h7⟩

/-- Witness for `c3_amended` at the concrete board `bFull41` (legal
column 0): the hard branch's chosen column is legal. -/
theorem c3_amended_witness :
    WF bFull41 ∧ colHasEmpty bFull41 0 = true ∧
    (0 ≤ (bestMoveHard bFull41).1 ∧ (bestMoveHard bFull41).1 < 7 ∧
      colHasEmpty bFull41 (bestMoveHard bFull41).1.toNat = true) :=
  ⟨by decide, by decide, (c3_amended bFull41 (by decide) ⟨0, by decide, by decide⟩).1⟩

/-- Membership after a sorted insertion. -/
theorem sortInsert_mem (n : SNode) : ∀ (l : List SNode) (x : SNode),
    x ∈ sortInsert n l → x = n ∨ x ∈ l := by
  intro l
  induction l with
  | nil =>
    intro x hx
    rcases List.mem_cons.mp hx with rfl | h
    · exact Or.inl rfl
    · cases h
  | cons m ms ih =>
    intro x hx
    rw [sortInsert] at hx
    split at hx
    · rcases List.mem_cons.mp hx with rfl | h
      · exact Or.inl rfl
      · exact Or.inr h
    · rcases List.mem_cons.mp hx with rfl | h
      · exact Or.inr (List.mem_cons_self _ _)
      · rcases ih x h with h1 | h2
        · exact Or.inl h1
        · exact Or.inr (List.mem_cons_of_mem _ h2)

/-- The stable sort only permutes: members of the sorted list are
members of the original. -/
theorem sortByF_mem : ∀ (l : List SNode) (x : SNode), x ∈ sortByF l → x ∈ l := by
  intro l
  induction l with
  | nil => intro x hx; cases hx
  | cons n ns ih =>
    intro x hx
    rw [sortByF] at hx
    rcases sortInsert_mem n (sortByF ns) x hx with rfl | h
    · exact List.mem_cons_self _ _
    · exact List.mem_cons_of_mem _ (ih x h)

/-- Every successor node records the column it was created from. -/
theorem generateSuccessors_move (b : Board) (p : Nat) :
    ∀ s ∈ generateSuccessors b p, ∃ c : Nat, s.move = some c := by
  intro s hs
  rw [generateSuccessors, List.mem_filterMap] at hs
  obtain ⟨c, _, hc⟩ := hs
  rcases ho : rowsBottomUp.find? fun r => cellAt b r c == EMPTY with _ | r
  · rw [ho] at hc; cases hc
  · rw [ho] at hc
    simp only [Option.map_some'] at hc
    have hs := Option.some.inj hc
    exact ⟨c, by rw [← hs]⟩

/-- The successor-insertion fold of `aStarSearch` preserves a property
that holds of the accumulator and of every (re-scored) successor. -/
theorem aStarFold_invariant (P : SNode → Prop) (cur : SNode)
    (closed' : List SNode) :
    ∀ (succs acc : List SNode), (∀ x ∈ acc, P x) →
      (∀ s ∈ succs,
        P { s with g := cur.g + 1, f := cur.g + 1, path := cur.path ++ s.move.toList }) →
      ∀ x ∈ succs.foldl (fun acc s =>
          if closed'.any fun n => n.board == s.board then acc
          else
            let s' := { s with g := cur.g + 1, f := cur.g + 1,
                               path := cur.path ++ s.move.toList }
            match acc.find? fun n => n.board == s.board with
            | some ex => if s'.f < ex.f then acc ++ [s'] else acc
            | none => acc ++ [s']) acc, P x := by
  intro succs
  induction succs with
  | nil => intro acc hacc _ x hx; exact hacc x hx
  | cons s ss ih =>
    intro acc hacc hsucc x hx
    rw [List.foldl_cons] at hx
    have hs' : P { s with g := cur.g + 1, f := cur.g + 1, path := cur.path ++ s.move.toList } := hsucc s (List.mem_cons_self _ _)
    have hss : ∀ t ∈ ss, P { t with g := cur.g + 1, f := cur.g + 1, path := cur.path ++ t.move.toList } := fun t ht => hsucc t (List.mem_cons_of_mem _ ht)
    refine ih _ ?_ hss x hx
    intro y hy
    try dsimp only at hy
    split at hy
    · exact hacc y hy
    · split at hy
      · split at hy
        · rcases List.mem_append.mp hy with h1 | h2
          · exact hacc y h1
          · rcases List.mem_cons.mp h2 with rfl | h3
            · exact hs'
            · cases h3
        · exact hacc y hy
      · rcases List.mem_append.mp hy with h1 | h2
        · exact hacc y h1
        · rcases List.mem_cons.mp h2 with rfl | h3
          · exact hs'
          · cases h3

/-- Appending one element makes it the last. -/
theorem getLast?_append_singleton {α : Type} : ∀ (l : List α) (a : α),
    (l ++ [a]).getLast? = some a := by
  intro l
  induction l with
  | nil => intro a; rfl
  | cons x xs ih =>
    intro a
    rw [List.cons_append, List.getLast?_cons, ih]
    cases xs <;> rfl

/-- Search invariant: every node the easy search can return records as
`move` the column of the final ply of its `path` (for the start node
both are `none`): the recorded move of a successor is the column that
created it, which is exactly the last column appended to its path. -/
theorem aStarLoop_moveLast (player : Nat) :
    ∀ (fuel : Nat) (openL closedL : List SNode) (n : SNode),
      (∀ m ∈ openL, m.move = m.path.getLast?) →
      aStarLoop player fuel openL closedL = some (some n) →
      n.move = n.path.getLast? := by
  intro fuel
  induction fuel with
  | zero => intro openL closedL n _ h; cases h
  | succ fuel ih =>
    intro openL closedL n hinv hrun
    rw [aStarLoop] at hrun
    split at hrun
    · cases hrun
    · rename_i cur rest hsort
      have hcurmem : cur ∈ openL := sortByF_mem openL cur (hsort ▸ List.mem_cons_self _ _)
      split at hrun
      · have : cur = n := by
          have := Option.some.inj (Option.some.inj hrun)
          exact this
        rw [← this]
        exact hinv cur hcurmem
      · refine ih _ _ n ?_ hrun
        apply aStarFold_invariant (fun x => x.move = x.path.getLast?) cur
          (closedL ++ [cur]) (generateSuccessors cur.board player) rest
        · intro m hm
          exact hinv m (sortByF_mem openL m (hsort ▸ List.mem_cons_of_mem _ hm))
        · intro s hs
          obtain ⟨c, hc⟩ := generateSuccessors_move cur.board player s hs
          show s.move = (cur.path ++ s.move.toList).getLast?
          rw [hc]
          exact (getLast?_append_singleton cur.path c).symm

/-- C2 (amended): whenever the easy search finds a node, the easy
branch of `bestMove` returns that node's recorded move, which is the
column of the **last** ply of the path from the current board to the
winning node (and `null` when the start board itself already contains
the win), not the column of the first ply. -/
theorem c2_amended (fuel : Nat) (b : Board) (rand : Nat) (n : SNode)
    (h : aStarSearch b OPPONENT fuel = some (some n)) :
    n.move = n.path.getLast? ∧ bestMoveEasy fuel b rand = some n.move := by
  constructor
  · rw [aStarSearch] at h
    refine aStarLoop_moveLast OPPONENT fuel _ [] n ?_ h
    intro m hm
    rcases List.mem_cons.mp hm with rfl | h'
    · rfl
    · cases h'
  · simp only [bestMoveEasy, h]

/-- Witness for `c2_amended` at the concrete board `B2`: the returned
node records move 3, the last column of its path `[2, 3]`. -/
theorem c2_amended_witness :
    c2Node.move = c2Node.path.getLast? ∧ bestMoveEasy 50 B2 0 = some c2Node.move :=
  c2_amended 50 B2 0 c2Node (by decide)

/-- Every placement recorded by the maximizing row loop is in its
column. -/
theorem maxRowT_col (rec : Board → XInt → XInt × Board) (col : Nat) (beta : XInt) :
    ∀ (rows : List Nat) (bd : Board) (alpha maxEval : XInt) (e : TEntry),
      e ∈ (maxRowT rec col beta rows bd alpha maxEval).2.2.2 → e.col = col := by
  intro rows
  induction rows with
  | nil => intro bd alpha me e he; cases he
  | cons r rs ih =>
    intro bd alpha me e he
    cases hc : cellAt bd r col == EMPTY with
    | false =>
      simp only [maxRowT, hc, Bool.false_eq_true, ite_false] at he
      exact ih bd alpha me e he
    | true =>
      simp only [maxRowT, hc, ite_true] at he
      split at he
      · rcases List.mem_cons.mp he with rfl | h
        · rfl
        · cases h
      · rcases List.mem_cons.mp he with rfl | h
        · rfl
        · exact ih _ _ _ e h

/-- Once the pruning test fires, the maximizing row loop records
nothing further: a triggering entry is the last of its column trace. -/
theorem maxRowT_trigger_last (rec : Board → XInt → XInt × Board) (col : Nat) (beta : XInt) :
    ∀ (rows : List Nat) (bd : Board) (alpha maxEval : XInt) (pre : List TEntry)
      (e : TEntry) (suf : List TEntry),
      (maxRowT rec col beta rows bd alpha maxEval).2.2.2 = pre ++ e :: suf →
      xle e.betaAfter e.alphaAfter = true → suf = [] := by
  intro rows
  induction rows with
  | nil =>
    intro bd alpha me pre e suf htr _
    exact absurd htr.symm (List.append_ne_nil_of_right_ne_nil pre (by simp))
  | cons r rs ih =>
    intro bd alpha me pre e suf htr htrig
    cases hc : cellAt bd r col == EMPTY with
    | false =>
      simp only [maxRowT, hc, Bool.false_eq_true, ite_false] at htr
      exact ih bd alpha me pre e suf htr htrig
    | true =>
      simp only [maxRowT, hc, ite_true] at htr
      split at htr
      · rcases pre with _ | ⟨p, ps⟩
        · simpa using (List.cons.inj htr).2.symm
        · rw [List.cons_append] at htr
          have h2 := (List.cons.inj htr).2
          exact absurd h2.symm (List.append_ne_nil_of_right_ne_nil ps (by simp))
      · rename_i hno
        rcases pre with _ | ⟨p, ps⟩
        · rw [List.nil_append] at htr
          obtain ⟨rfl, -⟩ : _ ∧ _ := ⟨(List.cons.inj htr).1, (List.cons.inj htr).2⟩
          exact absurd htrig hno
        · rw [List.cons_append] at htr
          exact ih _ _ _ ps e suf (List.cons.inj htr).2 htrig

/-- Every placement recorded by the maximizing column loop is in one of
its listed columns. -/
theorem maxColT_colmem (rec : Board → XInt → XInt × Board) (beta : XInt) :
    ∀ (cols : List Nat) (bd : Board) (alpha maxEval : XInt) (e : TEntry),
      e ∈ (maxColT rec beta cols bd alpha maxEval).2.2 → e.col ∈ cols := by
  intro cols
  induction cols with
  | nil => intro bd alpha me e he; cases he
  | cons c cs ih =>
    intro bd alpha me e he
    simp only [maxColT] at he
    rcases List.mem_append.mp he with h1 | h2
    · rw [maxRowT_col rec c beta rowsBottomUp bd alpha me e h1]
      exact List.mem_cons_self _ _
    · exact List.mem_cons_of_mem _ (ih _ _ _ e h2)

/-- Once the pruning test fires in a maximizing layer, no further
placement of the same column is recorded: the break leaves the row
loop, and all later placements belong to later (distinct) columns. -/
theorem maxColT_prune (rec : Board → XInt → XInt × Board) (beta : XInt) :
    ∀ (cols : List Nat), cols.Nodup →
      ∀ (bd : Board) (alpha maxEval : XInt) (pre : List TEntry) (e : TEntry)
        (suf : List TEntry),
        (maxColT rec beta cols bd alpha maxEval).2.2 = pre ++ e :: suf →
        xle e.betaAfter e.alphaAfter = true →
        ∀ e' ∈ suf, e'.col ≠ e.col := by
  intro cols
  induction cols with
  | nil =>
    intro _ bd alpha me pre e suf htr _
    exact absurd htr.symm (List.append_ne_nil_of_right_ne_nil pre (by simp))
  | cons c cs ih =>
    intro hnd bd alpha me pre e suf htr htrig
    obtain ⟨hcn, hnd'⟩ := List.nodup_cons.mp hnd
    simp only [maxColT] at htr
    rcases List.append_eq_append_iff.mp htr with ⟨m, hpre, hrest⟩ | ⟨m, htc, hm⟩
    · exact ih hnd' _ _ _ m e suf hrest htrig
    · rcases m with _ | ⟨q, qs⟩
      · rw [List.append_nil] at htc
        rw [List.nil_append] at hm
        exact ih hnd' _ _ _ [] e suf hm.symm htrig
      · rw [List.cons_append] at hm
        obtain ⟨rfl, hsuf⟩ : _ ∧ _ := ⟨(List.cons.inj hm).1, (List.cons.inj hm).2⟩
        have hqs : qs = [] :=
          maxRowT_trigger_last rec c beta rowsBottomUp bd alpha me pre e qs htc htrig
        subst hqs
        have hqcol : e.col = c := by
          refine maxRowT_col rec c beta rowsBottomUp bd alpha me e ?_
          rw [htc]
          exact List.mem_append.mpr (Or.inr (List.mem_cons_self _ _))
        intro e' he'
        rw [hsuf] at he'
        rw [List.nil_append] at he'
        have := maxColT_colmem rec beta cs _ _ _ e' he'
        rw [hqcol]
        intro hcontra
        rw [hcontra] at this
        exact hcn this

/-- Every placement recorded by the minimizing row loop is in its
column. -/
theorem minRowT_col (rec : Board → XInt → XInt × Board) (col : Nat) (alpha : XInt) :
    ∀ (rows : List Nat) (bd : Board) (beta minEval : XInt) (e : TEntry),
      e ∈ (minRowT rec col alpha rows bd beta minEval).2.2.2 → e.col = col := by
  intro rows
  induction rows with
  | nil => intro bd beta me e he; cases he
  | cons r rs ih =>
    intro bd beta me e he
    cases hc : cellAt bd r col == EMPTY with
    | false =>
      simp only [minRowT, hc, Bool.false_eq_true, ite_false] at he
      exact ih bd beta me e he
    | true =>
      simp only [minRowT, hc, ite_true] at he
      split at he
      · rcases List.mem_cons.mp he with rfl | h
        · rfl
        · cases h
      · rcases List.mem_cons.mp he with rfl | h
        · rfl
        · exact ih _ _ _ e h

/-- Once the pruning test fires, the minimizing row loop records
nothing further. -/
theorem minRowT_trigger_last (rec : Board → XInt → XInt × Board) (col : Nat) (alpha : XInt) :
    ∀ (rows : List Nat) (bd : Board) (beta minEval : XInt) (pre : List TEntry)
      (e : TEntry) (suf : List TEntry),
      (minRowT rec col alpha rows bd beta minEval).2.2.2 = pre ++ e :: suf →
      xle e.betaAfter e.alphaAfter = true → suf = [] := by
  intro rows
  induction rows with
  | nil =>
    intro bd beta me pre e suf htr _
    exact absurd htr.symm (List.append_ne_nil_of_right_ne_nil pre (by simp))
  | cons r rs ih =>
    intro bd beta me pre e suf htr htrig
    cases hc : cellAt bd r col == EMPTY with
    | false =>
      simp only [minRowT, hc, Bool.false_eq_true, ite_false] at htr
      exact ih bd beta me pre e suf htr htrig
    | true =>
      simp only [minRowT, hc, ite_true] at htr
      split at htr
      · rcases pre with _ | ⟨p, ps⟩
        · simpa using (List.cons.inj htr).2.symm
        · rw [List.cons_append] at htr
          have h2 := (List.cons.inj htr).2
          exact absurd h2.symm (List.append_ne_nil_of_right_ne_nil ps (by simp))
      · rename_i hno
        rcases pre with _ | ⟨p, ps⟩
        · rw [List.nil_append] at htr
          obtain ⟨rfl, -⟩ : _ ∧ _ := ⟨(List.cons.inj htr).1, (List.cons.inj htr).2⟩
          exact absurd htrig hno
        · rw [List.cons_append] at htr
          exact ih _ _ _ ps e suf (List.cons.inj htr).2 htrig

/-- Every placement recorded by the minimizing column loop is in one of
its listed columns. -/
theorem minColT_colmem (rec : Board → XInt → XInt × Board) (alpha : XInt) :
    ∀ (cols : List Nat) (bd : Board) (beta minEval : XInt) (e : TEntry),
      e ∈ (minColT rec alpha cols bd beta minEval).2.2 → e.col ∈ cols := by
  intro cols
  induction cols with
  | nil => intro bd beta me e he; cases he
  | cons c cs ih =>
    intro bd beta me e he
    simp only [minColT] at he
    rcases List.mem_append.mp he with h1 | h2
    · rw [minRowT_col rec c alpha rowsBottomUp bd beta me e h1]
      exact List.mem_cons_self _ _
    · exact List.mem_cons_of_mem _ (ih _ _ _ e h2)

/-- Dual of `maxColT_prune` for minimizing layers. -/
theorem minColT_prune (rec : Board → XInt → XInt × Board) (alpha : XInt) :
    ∀ (cols : List Nat), cols.Nodup →
      ∀ (bd : Board) (beta minEval : XInt) (pre : List TEntry) (e : TEntry)
        (suf : List TEntry),
        (minColT rec alpha cols bd beta minEval).2.2 = pre ++ e :: suf →
        xle e.betaAfter e.alphaAfter = true →
        ∀ e' ∈ suf, e'.col ≠ e.col := by
  intro cols
  induction cols with
  | nil =>
    intro _ bd beta me pre e suf htr _
    exact absurd htr.symm (List.append_ne_nil_of_right_ne_nil pre (by simp))
  | cons c cs ih =>
    intro hnd bd beta me pre e suf htr htrig
    obtain ⟨hcn, hnd'⟩ := List.nodup_cons.mp hnd
    simp only [minColT] at htr
    rcases List.append_eq_append_iff.mp htr with ⟨m, hpre, hrest⟩ | ⟨m, htc, hm⟩
    · exact ih hnd' _ _ _ m e suf hrest htrig
    · rcases m with _ | ⟨q, qs⟩
      · rw [List.append_nil] at htc
        rw [List.nil_append] at hm
        exact ih hnd' _ _ _ [] e suf hm.symm htrig
      · rw [List.cons_append] at hm
        obtain ⟨rfl, hsuf⟩ : _ ∧ _ := ⟨(List.cons.inj hm).1, (List.cons.inj hm).2⟩
        have hqs : qs = [] :=
          minRowT_trigger_last rec c alpha rowsBottomUp bd beta me pre e qs htc htrig
        subst hqs
        have hqcol : e.col = c := by
          refine minRowT_col rec c alpha rowsBottomUp bd beta me e ?_
          rw [htc]
          exact List.mem_append.mpr (Or.inr (List.mem_cons_self _ _))
        intro e' he'
        rw [hsuf] at he'
        rw [List.nil_append] at he'
        have := minColT_colmem rec alpha cs _ _ _ e' he'
        rw [hqcol]
        intro hcontra
        rw [hcontra] at this
        exact hcn this

/-- C4 (amended): in any `minimax` layer, once `beta <= alpha` holds
right after evaluating a placement, no later placement of that layer is
in the same column: the pruning break ends the current column's row
scan — but, as `c4_counterexample` shows, later columns are still
examined. -/
theorem c4_amended (b : Board) (d : Nat) (alpha beta : XInt) (mx : Bool)
    (pre : List TEntry) (e : TEntry) (suf : List TEntry)
    (htr : (minimaxTrace b d alpha beta mx).2.2 = pre ++ e :: suf)
    (htrig : xle e.betaAfter e.alphaAfter = true) :
    ∀ e' ∈ suf, e'.col ≠ e.col := by
  cases d with
  | zero => exact absurd htr.symm (List.append_ne_nil_of_right_ne_nil pre (by simp))
  | succ d =>
    rw [minimaxTrace] at htr
    split at htr
    · exact absurd htr.symm (List.append_ne_nil_of_right_ne_nil pre (by simp))
    · split at htr
      · exact maxColT_prune _ beta colsAsc (by decide) b alpha .negInf pre e suf htr htrig
      · exact minColT_prune _ alpha colsAsc (by decide) b beta .posInf pre e suf htr htrig

/-- Witness for `c4_amended` at the concrete input of
`c4_counterexample`: the column-0 entry triggers the pruning test, and
the later column-1 entry is in a different column. -/
theorem c4_amended_witness :
    (minimaxTrace emptyBoard 1 (.fin 1000000) .posInf false).2.2 =
      [] ++ (⟨5, 0, .fin 1000000, .fin (-5)⟩ : TEntry) ::
        [⟨5, 1, .fin 1000000, .fin (-5)⟩, ⟨5, 2, .fin 1000000, .fin (-5)⟩,
         ⟨5, 3, .fin 1000000, .fin (-5)⟩, ⟨5, 4, .fin 1000000, .fin (-5)⟩,
         ⟨5, 5, .fin 1000000, .fin (-5)⟩, ⟨5, 6, .fin 1000000, .fin (-5)⟩] ∧
    TEntry.col ⟨5, 1, .fin 1000000, .fin (-5)⟩ ≠ TEntry.col ⟨5, 0, .fin 1000000, .fin (-5)⟩ :=
  ⟨by decide,
   c4_amended emptyBoard 1 (.fin 1000000) .posInf false []
     ⟨5, 0, .fin 1000000, .fin (-5)⟩
     [⟨5, 1, .fin 1000000, .fin (-5)⟩, ⟨5, 2, .fin 1000000, .fin (-5)⟩,
      ⟨5, 3, .fin 1000000, .fin (-5)⟩, ⟨5, 4, .fin 1000000, .fin (-5)⟩,
      ⟨5, 5, .fin 1000000, .fin (-5)⟩, ⟨5, 6, .fin 1000000, .fin (-5)⟩]
     (by decide) (by decide)
     ⟨5, 1, .fin 1000000, .fin (-5)⟩ (by decide)⟩
